import Mathlib

/-!
Verification of `strip-mysql-compatibility-comments.py`.

The script stream-processes a MySQL dump, line by line, and removes
versioned compatibility comments `/*!<digits> ... */` whose version number
is below a threshold (default 80000), while keeping everything else
byte-for-byte.  We embed the two core functions of the source,
`find_conditional_end` and `process_dump_stream`, as executable Lean
functions over `List Char` (a chunk of text) and `List (List Char)`
(the remaining chunks still to be read; exhaustion of the list models
end of file).  File handling, progress reporting and UTF-8 decoding are
outside the model.
-/

/-- Model of Python's `str.isdigit()` on one character.  `str.isdigit`
accepts every character whose Unicode `Numeric_Type` is `Digit` or
`Decimal`.  The model covers the ASCII decimal digits `0`-`9` (which
`int()` parses) together with the Latin-1 superscript digits `¹`, `²`,
`³` (U+00B9, U+00B2, U+00B3), which have `Numeric_Type=Digit`, so
`str.isdigit` accepts them, while `int()` rejects them.  Other Unicode
digit characters are not modelled. -/
def pyIsDigit (c : Char) : Bool :=
  c.isDigit || c = '¹' || c = '²' || c = '³'

/-- Decimal value of one character as accepted by Python's `int()`:
only genuine decimal digits parse (within the modelled character set,
the ASCII digits); the superscript digits raise `ValueError`. -/
def pyDigit (c : Char) : Option Nat :=
  if c.isDigit then some (c.toNat - '0'.toNat) else none

/-- Accumulator loop of the `int()` model. -/
def pyIntGo : Nat → List Char → Option Nat
  | acc, [] => some acc
  | acc, c :: cs =>
    match pyDigit c with
    | some d => pyIntGo (10 * acc + d) cs
    | none => none

/-- Model of Python's `int(s)` for a string made of `pyIsDigit`
characters: `none` models a raised `ValueError` (empty string, or a
character `int()` does not accept). -/
def pyInt : List Char → Option Nat
  | [] => none
  | c :: cs => pyIntGo 0 (c :: cs)

/-- Length of the leading digit run, Python's
`while j < n and comment[j].isdigit(): j += 1` counted from the start of
the list. -/
def digitsLen : List Char → Nat
  | [] => 0
  | c :: cs => if pyIsDigit c then digitsLen cs + 1 else 0

/-- The three characters `/*!` that open a versioned comment. -/
def pre3 : List Char := ['/', '*', '!']

/-- The scanning loop of `find_conditional_end` (source lines 58-81):
starting at absolute offset `k` with nesting depth `depth`, look at each
two-character window; `/*` increments the depth and advances by 2, `*/`
at depth 0 is the match (return its offset), `*/` at positive depth
decrements the depth and advances by 2, anything else advances by 1;
when fewer than two characters remain the closer was not found. -/
def scanClose : Nat → Nat → List Char → Option Nat
  | _, _, [] => none
  | _, _, [_] => none
  | depth, k, c1 :: c2 :: rest =>
    if c1 = '/' ∧ c2 = '*' then
      scanClose (depth + 1) (k + 2) rest
    else if c1 = '*' ∧ c2 = '/' then
      if depth = 0 then some k else scanClose (depth - 1) (k + 2) rest
    else
      scanClose depth (k + 1) (c2 :: rest)

/-- `find_conditional_end` (source lines 33-82): given a string that
starts with `/*!`, measure the digit run following position 3; if it is
empty report `(none, none)`; otherwise scan from the end of the digit
run for the `*/` that closes this comment, returning its offset (or
`none`) together with the offset right after the digits. -/
def find_conditional_end (comment : List Char) : Option Nat × Option Nat :=
  if digitsLen (comment.drop 3) = 0 then (none, none)
  else
    (scanClose 0 (3 + digitsLen (comment.drop 3))
       (comment.drop (3 + digitsLen (comment.drop 3))),
     some (3 + digitsLen (comment.drop 3)))

/-- Model of `line.find("/*!", pos)` (source line 118) combined with the
split it induces: `none` when `/*!` does not occur; otherwise
`some (pre, cs)` where `line = pre ++ "/*!" ++ cs` and `pre` is the text
before the first occurrence. -/
def findOpener : List Char → Option (List Char × List Char)
  | [] => none
  | c :: cs =>
    if (c :: cs).take 3 = pre3 then some ([], cs.drop 2)
    else
      match findOpener cs with
      | some pr => some (c :: pr.1, pr.2)
      | none => none

/-- Result of the comment-accumulation loop (source lines 138-158):
either the closing `*/` was found (`closed`, carrying the accumulated
comment, the closer offset, the digits-end offset and the chunks still
unread), or input ended first (`eof`, carrying the accumulated text). -/
inductive AccResult where
  | closed (comment : List Char) (end_pos digits_end : Nat)
      (rest : List (List Char)) : AccResult
  | eof (comment : List Char) : AccResult
deriving DecidableEq

/-- The accumulation loop (source lines 138-158): call
`find_conditional_end` on the comment accumulated so far; on success
stop; otherwise read the next chunk and append it, or report `eof` when
no chunk is left.  The `digits_end` of a successful call is always
`some` (see `find_conditional_end`); `getD 0` only gives the impossible
branch a value. -/
def accumulate : List Char → List (List Char) → AccResult
  | c, [] =>
    match find_conditional_end c with
    | (some e, d) => AccResult.closed c e (d.getD 0) []
    | (none, _) => AccResult.eof c
  | c, l :: ls =>
    match find_conditional_end c with
    | (some e, d) => AccResult.closed c e (d.getD 0) (l :: ls)
    | (none, _) => accumulate (c ++ l) ls

/-- Concatenation of a list of chunks: the logical source text. -/
def chunksConcat : List (List Char) → List Char
  | [] => []
  | l :: ls => l ++ chunksConcat ls

/-- Termination measure for the processing loop: remaining characters
plus the number of unread chunks. -/
def mLen (line : List Char) (rest : List (List Char)) : Nat :=
  line.length + (chunksConcat rest).length + rest.length

/-- One unfolding of the processing loop of `process_dump_stream`
(source lines 108-183), with the recursive occurrences abstracted as
`recur`.  In the current chunk, look for `/*!`; if absent emit the chunk
and move to the next one (or stop at end of input); if present but not
followed by a digit, emit the text up to and including `/*!` and resume
right after it; otherwise accumulate the full comment, and either emit
everything verbatim on end of input, or parse the version (a failed
parse counts as 0), emit the inner content when `version < th` and the
whole comment otherwise, and resume on the text after the closer. -/
def runBody (th : Nat) (recur : List Char → List (List Char) → List Char)
    (line : List Char) (rest : List (List Char)) : List Char :=
  match findOpener line with
  | none =>
    match rest with
    | [] => line
    | l :: ls => line ++ recur l ls
  | some (pre, cs) =>
    if digitsLen cs = 0 then
      pre ++ pre3 ++ recur cs rest
    else
      match accumulate (pre3 ++ cs) rest with
      | AccResult.eof full => pre ++ full
      | AccResult.closed full e d rest2 =>
        pre ++
          (if (pyInt ((full.take d).drop 3)).getD 0 < th then
            (full.take e).drop d
          else
            full.take (e + 2)) ++
          recur (full.drop (e + 2)) rest2

/-- Fuelled processing loop; with fuel at least `mLen line rest + 1` the
fuel never runs out (`runF_congr` below). -/
def runF (th : Nat) : Nat → List Char → List (List Char) → List Char
  | 0, _, _ => []
  | fuel + 1, line, rest => runBody th (runF th fuel) line rest

/-- The processing loop of `process_dump_stream` on a current chunk and
the list of chunks not yet read. -/
def run (th : Nat) (line : List Char) (rest : List (List Char)) : List Char :=
  runF th (mLen line rest + 1) line rest

/-- `process_dump_stream` (source lines 85-192) as a pure text
transducer: the input file is the list of chunks returned by successive
`readline()` calls, the result is the text written to the output file.
I/O, encoding and progress reporting are outside the model. -/
def process_dump_stream (th : Nat) : List (List Char) → List Char
  | [] => []
  | l :: ls => run th l ls

/-- One plain (non-delimiter) character step of the balanced-interior
grammar: consuming `c` in front of `s` must not create a `/*` or `*/`
window, and a trailing `/` is forbidden because the closing `*/` that
follows the interior would turn it into `/*`. -/
def plainStep (c : Char) (s : List Char) : Bool :=
  match s with
  | [] => c != '/'
  | c2 :: _ => !((c == '/') && (c2 == '*')) && !((c == '*') && (c2 == '/'))

/-- Balanced interior of a comment: a sequence of plain characters and
properly nested `/* ... */` blocks, as consumed by `scanClose` without
ever meeting a `*/` at depth 0. -/
inductive Bal : List Char → Prop where
  | nil : Bal []
  | chr {c : Char} {s : List Char} :
      plainStep c s = true → Bal s → Bal (c :: s)
  | blk {b s : List Char} :
      Bal b → Bal s → Bal ('/' :: '*' :: (b ++ '*' :: '/' :: s))

/-- Text containing no legacy versioned comment, following the structure
of the scanner: no `/*!` at all, or a `/*!` lookalike without digits, or
a versioned comment whose version is at least the threshold, or a
truncated versioned comment, each followed by clean text. -/
inductive NoLegacy (th : Nat) : List Char → Prop where
  | no_opener {t : List Char} : findOpener t = none → NoLegacy th t
  | lookalike {t p cs : List Char} :
      findOpener t = some (p, cs) → digitsLen cs = 0 →
      NoLegacy th cs → NoLegacy th t
  | kept {t p cs : List Char} {e d : Nat} :
      findOpener t = some (p, cs) → digitsLen cs ≠ 0 →
      find_conditional_end (pre3 ++ cs) = (some e, some d) →
      th ≤ (pyInt (((pre3 ++ cs).take d).drop 3)).getD 0 →
      NoLegacy th ((pre3 ++ cs).drop (e + 2)) → NoLegacy th t
  | truncated {t p cs : List Char} :
      findOpener t = some (p, cs) → digitsLen cs ≠ 0 →
      (find_conditional_end (pre3 ++ cs)).1 = none → NoLegacy th t

/-- Chunk lists as produced by `readline()`: every chunk except possibly
the last ends with a newline character. -/
def nlTerminated : List (List Char) → Prop
  | [] => True
  | [_] => True
  | l :: l2 :: ls => l.getLast? = some '\n' ∧ nlTerminated (l2 :: ls)

/-! ### Basic lemmas about the scanner components -/

lemma chunksConcat_append (a b : List (List Char)) :
    chunksConcat (a ++ b) = chunksConcat a ++ chunksConcat b := by
  induction a with
  | nil => rfl
  | cons l ls ih => simp [chunksConcat, ih]

lemma findOpener_opener (cs : List Char) :
    findOpener ('/' :: '*' :: '!' :: cs) = some ([], cs) := by
  simp [findOpener, pre3]

lemma findOpener_sound : ∀ {t p cs : List Char},
    findOpener t = some (p, cs) → t = p ++ '/' :: '*' :: '!' :: cs := by
  intro t
  induction t with
  | nil => intro p cs h; simp [findOpener] at h
  | cons c rest ih =>
    intro p cs h
    rw [findOpener] at h
    split at h
    · next htake =>
      rcases h with ⟨⟩
      have : c :: rest = (c :: rest).take 3 ++ (c :: rest).drop 3 :=
        (List.take_append_drop 3 (c :: rest)).symm
      rw [htake] at this
      simpa [pre3] using this
    · next htake =>
      rcases hr : findOpener rest with _ | pr
      · rw [hr] at h; cases h
      · rw [hr] at h
        rcases h with ⟨⟩
        simpa using congrArg (c :: ·) (ih hr)

lemma findOpener_length_ge {t p cs : List Char}
    (h : findOpener t = some (p, cs)) : 3 ≤ t.length := by
  have := findOpener_sound h
  subst this
  simp
  omega

lemma findOpener_append_some {a p cs : List Char} (b : List Char)
    (h : findOpener a = some (p, cs)) :
    findOpener (a ++ b) = some (p, cs ++ b) := by
  induction a generalizing p cs with
  | nil => simp [findOpener] at h
  | cons c rest ih =>
    rw [findOpener] at h
    rw [List.cons_append, findOpener]
    split at h
    · next htake =>
      rcases h with ⟨⟩
      have hshape : c :: rest = pre3 ++ (c :: rest).drop 3 := by
        conv_lhs => rw [← List.take_append_drop 3 (c :: rest)]
        rw [htake]
      have hlen2 : 2 ≤ rest.length := by
        have := congrArg List.length hshape
        simp [pre3] at this
        omega
      rw [if_pos ?_]
      · congr 2
        exact List.drop_append_of_le_length hlen2
      · rw [show c :: (rest ++ b) = (c :: rest) ++ b by simp,
          List.take_append_of_le_length (by simp; omega), htake]
    · next htake =>
      rcases hr : findOpener rest with _ | pr
      · rw [hr] at h; cases h
      · rw [hr] at h
        rcases h with ⟨⟩
        have hlen : 3 ≤ rest.length := findOpener_length_ge hr
        rw [if_neg ?_, ih hr]
        rw [show c :: (rest ++ b) = (c :: rest) ++ b by simp,
          List.take_append_of_le_length (by simp; omega)]
        exact htake

lemma findOpener_locate {p : List Char} (h : findOpener p = none)
    (cs : List Char) :
    findOpener (p ++ '/' :: '*' :: '!' :: cs) = some (p, cs) := by
  induction p with
  | nil => simpa using findOpener_opener cs
  | cons c prest ih =>
    rw [findOpener] at h
    rw [List.cons_append, findOpener]
    have hcond : ¬ (c :: prest).take 3 = pre3 := by
      intro hc
      rw [if_pos hc] at h
      cases h
    rw [if_neg hcond] at h
    rw [if_neg ?_]
    · rcases hr : findOpener prest with _ | pr
      · rw [ih hr]
      · rw [hr] at h; cases h
    · match prest with
      | [] => simp [pre3]
      | [x] => simp [pre3]
      | x :: y :: zs =>
        rw [show c :: ((x :: y :: zs) ++ '/' :: '*' :: '!' :: cs)
              = (c :: x :: y :: zs) ++ '/' :: '*' :: '!' :: cs by simp,
          List.take_append_of_le_length (by simp)]
        exact hcond

lemma findOpener_none_no_occ {p : List Char} (h : findOpener p = none)
    {x y : List Char} : p ≠ x ++ '/' :: '*' :: '!' :: y := by
  intro hp
  rw [hp] at h
  rcases hx : findOpener x with _ | pr
  · rw [findOpener_locate hx y] at h; cases h
  · rw [findOpener_append_some _ hx] at h; cases h

lemma findOpener_none_of_no_occ {p : List Char}
    (h : ∀ x y : List Char, p ≠ x ++ '/' :: '*' :: '!' :: y) :
    findOpener p = none := by
  rcases hp : findOpener p with _ | pr
  · rfl
  · rcases pr with ⟨a, b⟩
    exact absurd (findOpener_sound hp) (h a b)

lemma digitsLen_le (s : List Char) : digitsLen s ≤ s.length := by
  induction s with
  | nil => simp [digitsLen]
  | cons c cs ih =>
    rw [digitsLen]
    split
    · simp
      omega
    · simp

lemma digitsLen_append (a b : List Char) :
    digitsLen (a ++ b) =
      if digitsLen a = a.length then a.length + digitsLen b
      else digitsLen a := by
  induction a with
  | nil => simp [digitsLen]
  | cons c cs ih =>
    have hle := digitsLen_le cs
    cases hc : pyIsDigit c with
    | false =>
      simp only [List.cons_append, digitsLen, hc, Bool.false_eq_true,
        if_false, List.length_cons, List.append_eq]
      rw [if_neg (by omega)]
    | true =>
      simp only [List.cons_append, digitsLen, hc, if_true, List.length_cons,
        List.append_eq]
      rw [ih]
      by_cases hl : digitsLen cs = cs.length
      · rw [if_pos hl, if_pos (by omega)]
        omega
      · rw [if_neg hl, if_neg (by omega)]

lemma digitsLen_append_lt {a : List Char} (b : List Char)
    (h : digitsLen a < a.length) : digitsLen (a ++ b) = digitsLen a := by
  rw [digitsLen_append, if_neg (by omega)]

lemma digitsLen_cons_ne (c : Char) (s : List Char) :
    digitsLen (c :: s) ≠ 0 ↔ pyIsDigit c = true := by
  rw [digitsLen]
  cases hc : pyIsDigit c <;> simp

lemma digitsLen_lt_of_last : ∀ {s : List Char} {c : Char},
    s.getLast? = some c → pyIsDigit c = false → digitsLen s < s.length := by
  intro s
  induction s with
  | nil => intro c h; cases h
  | cons d rest ih =>
    intro c h hc
    match rest, h with
    | [], h =>
      have : d = c := by simpa [List.getLast?] using h
      subst this
      simp [digitsLen, hc]
    | r :: rs, h =>
      have hr : (r :: rs).getLast? = some c := by
        rw [← h, List.getLast?_cons_cons]
      have := ih hr hc
      rw [digitsLen]
      simp only [List.length_cons] at this ⊢
      split
      · omega
      · omega

lemma scanClose_bounds_aux : ∀ (n : Nat) (s : List Char), s.length ≤ n →
    ∀ d k e, scanClose d k s = some e → k ≤ e ∧ e + 2 ≤ k + s.length := by
  intro n
  induction n with
  | zero =>
    intro s hs d k e h
    have : s = [] := List.length_eq_zero.mp (Nat.le_zero.mp hs)
    subst this
    simp [scanClose] at h
  | succ n ih =>
    intro s hs d k e h
    match s with
    | [] => simp [scanClose] at h
    | [x] => simp [scanClose] at h
    | c1 :: c2 :: rest =>
      rw [scanClose] at h
      simp only [List.length_cons] at hs ⊢
      split at h
      · have := ih rest (by omega) _ _ _ h
        omega
      · split at h
        · split at h
          · rcases h with ⟨⟩
            omega
          · have := ih rest (by omega) _ _ _ h
            omega
        · have := ih (c2 :: rest) (by simp; omega) _ _ _ h
          simp only [List.length_cons] at this
          omega

lemma scanClose_bounds {s : List Char} {d k e : Nat}
    (h : scanClose d k s = some e) : k ≤ e ∧ e + 2 ≤ k + s.length :=
  scanClose_bounds_aux s.length s le_rfl d k e h

lemma scanClose_append_aux : ∀ (n : Nat) (s : List Char), s.length ≤ n →
    ∀ d k e (b : List Char), scanClose d k s = some e →
      scanClose d k (s ++ b) = some e := by
  intro n
  induction n with
  | zero =>
    intro s hs d k e b h
    have : s = [] := List.length_eq_zero.mp (Nat.le_zero.mp hs)
    subst this
    simp [scanClose] at h
  | succ n ih =>
    intro s hs d k e b h
    match s with
    | [] => simp [scanClose] at h
    | [x] => simp [scanClose] at h
    | c1 :: c2 :: rest =>
      simp only [List.cons_append]
      rw [scanClose] at h
      rw [scanClose]
      simp only [List.length_cons] at hs
      split at h
      · next hcond =>
        rw [if_pos hcond]
        exact ih rest (by omega) _ _ _ b h
      · next hcond =>
        rw [if_neg hcond]
        split at h
        · next hcond2 =>
          rw [if_pos hcond2]
          split at h
          · next hd =>
            rcases h with ⟨⟩
            rw [if_pos hd]
          · next hd =>
            rw [if_neg hd]
            exact ih rest (by omega) _ _ _ b h
        · next hcond2 =>
          rw [if_neg hcond2]
          have := ih (c2 :: rest) (by simp; omega) _ _ _ b h
          simpa using this

lemma scanClose_append {s : List Char} {d k e : Nat} (b : List Char)
    (h : scanClose d k s = some e) : scanClose d k (s ++ b) = some e :=
  scanClose_append_aux s.length s le_rfl d k e b h

lemma find_some_spec {c : List Char} {e : Nat} {d : Option Nat}
    (h : find_conditional_end c = (some e, d)) :
    d = some (3 + digitsLen (c.drop 3)) ∧ digitsLen (c.drop 3) ≠ 0 ∧
      scanClose 0 (3 + digitsLen (c.drop 3))
        (c.drop (3 + digitsLen (c.drop 3))) = some e := by
  rw [find_conditional_end] at h
  split at h
  · cases h
  · next hdl =>
    have h1 := congrArg Prod.fst h
    have h2 := congrArg Prod.snd h
    simp only at h1 h2
    exact ⟨h2.symm, hdl, h1⟩

lemma find_of_parts {c : List Char} {e : Nat}
    (hdl : digitsLen (c.drop 3) ≠ 0)
    (hscan : scanClose 0 (3 + digitsLen (c.drop 3))
      (c.drop (3 + digitsLen (c.drop 3))) = some e) :
    find_conditional_end c = (some e, some (3 + digitsLen (c.drop 3))) := by
  rw [find_conditional_end, if_neg hdl, hscan]

lemma find_none_of_scan {c : List Char}
    (hscan : scanClose 0 (3 + digitsLen (c.drop 3))
      (c.drop (3 + digitsLen (c.drop 3))) = none) :
    (find_conditional_end c).1 = none := by
  rw [find_conditional_end]
  split
  · rfl
  · simp [hscan]

lemma accumulate_closed_of_find {c : List Char} {e d : Nat}
    (rest : List (List Char))
    (h : find_conditional_end c = (some e, some d)) :
    accumulate c rest = AccResult.closed c e d rest := by
  cases rest <;> rw [accumulate, h] <;> rfl

lemma accumulate_step {c : List Char}
    (h : (find_conditional_end c).1 = none) (l : List Char)
    (ls : List (List Char)) :
    accumulate c (l :: ls) = accumulate (c ++ l) ls := by
  rw [accumulate]
  rcases hf : find_conditional_end c with ⟨f1, f2⟩
  rw [hf] at h
  simp only at h
  subst h
  rfl

lemma accumulate_eof {c : List Char}
    (h : (find_conditional_end c).1 = none) :
    accumulate c [] = AccResult.eof c := by
  rw [accumulate]
  rcases hf : find_conditional_end c with ⟨f1, f2⟩
  rw [hf] at h
  simp only at h
  subst h
  rfl

lemma accumulate_closed_spec : ∀ {rest : List (List Char)}
    {c full : List Char} {e d : Nat} {rest2 : List (List Char)},
    accumulate c rest = AccResult.closed full e d rest2 →
    ∃ pref, rest = pref ++ rest2 ∧ full = c ++ chunksConcat pref ∧
      find_conditional_end full = (some e, some d) := by
  intro rest
  induction rest with
  | nil =>
    intro c full e d rest2 h
    rw [accumulate] at h
    rcases hf : find_conditional_end c with ⟨f1, f2⟩
    rw [hf] at h
    match f1, h with
    | some e1, h =>
      rcases h with ⟨⟩
      obtain ⟨hd, _, _⟩ := find_some_spec hf
      refine ⟨[], rfl, by simp [chunksConcat], ?_⟩
      rw [hf, hd]
      simp
    | none, h => cases h
  | cons l ls ih =>
    intro c full e d rest2 h
    rw [accumulate] at h
    rcases hf : find_conditional_end c with ⟨f1, f2⟩
    rw [hf] at h
    match f1, h with
    | some e1, h =>
      rcases h with ⟨⟩
      obtain ⟨hd, _, _⟩ := find_some_spec hf
      refine ⟨[], rfl, by simp [chunksConcat], ?_⟩
      rw [hf, hd]
      simp
    | none, h =>
      obtain ⟨pref, hrest, hfull, hfind⟩ := ih h
      exact ⟨l :: pref, by rw [hrest]; rfl,
        by rw [hfull]; simp [chunksConcat], hfind⟩

lemma closed_decrease {cs full : List Char} {e d : Nat}
    {rest rest2 : List (List Char)}
    (hacc : accumulate (pre3 ++ cs) rest = AccResult.closed full e d rest2) :
    4 ≤ e ∧ e + 2 ≤ full.length ∧
      mLen (full.drop (e + 2)) rest2 + 3 ≤ mLen cs rest := by
  obtain ⟨pref, hrest, hfull, hfind⟩ := accumulate_closed_spec hacc
  obtain ⟨hd, hdl, hscan⟩ := find_some_spec hfind
  obtain ⟨hke, hb⟩ := scanClose_bounds hscan
  have hfl : full.length = 3 + cs.length + (chunksConcat pref).length := by
    rw [hfull]
    simp [pre3]
    omega
  have hdle : digitsLen (full.drop 3) ≤ full.length - 3 := by
    have := digitsLen_le (full.drop 3)
    simpa using this
  have hdl1 : 1 ≤ digitsLen (full.drop 3) := Nat.one_le_iff_ne_zero.mpr hdl
  have hb2 : e + 2 ≤ full.length := by
    rw [List.length_drop] at hb
    omega
  have hrest_len : rest.length = pref.length + rest2.length := by
    rw [hrest]
    simp
  have hcc : (chunksConcat rest).length =
      (chunksConcat pref).length + (chunksConcat rest2).length := by
    rw [hrest, chunksConcat_append]
    simp
  refine ⟨by omega, hb2, ?_⟩
  simp only [mLen, List.length_drop]
  omega

lemma runBody_congr {th : Nat} {line : List Char} {rest : List (List Char)}
    {r1 r2 : List Char → List (List Char) → List Char}
    (h : ∀ a b, mLen a b < mLen line rest → r1 a b = r2 a b) :
    runBody th r1 line rest = runBody th r2 line rest := by
  unfold runBody
  rcases hop : findOpener line with _ | ⟨p, cs⟩
  · dsimp only
    rcases rest with _ | ⟨l, ls⟩
    · rfl
    · dsimp only
      rw [h l ls (by simp [mLen, chunksConcat]; omega)]
  · dsimp only
    have hline := findOpener_sound hop
    by_cases hdl : digitsLen cs = 0
    · rw [if_pos hdl, if_pos hdl,
        h cs rest (by rw [hline]; simp [mLen]; omega)]
    · rw [if_neg hdl, if_neg hdl]
      rcases hacc : accumulate (pre3 ++ cs) rest with ⟨full, e, d, rest2⟩ | full
      · dsimp only
        obtain ⟨-, -, hdec⟩ := closed_decrease hacc
        rw [h (full.drop (e + 2)) rest2 (by rw [hline]; simp [mLen] at hdec ⊢; omega)]
      · rfl

lemma runF_congr (th : Nat) : ∀ {n1 n2 : Nat} {line : List Char}
    {rest : List (List Char)}, mLen line rest < n1 → mLen line rest < n2 →
    runF th n1 line rest = runF th n2 line rest := by
  intro n1
  induction n1 with
  | zero => intro n2 line rest h1; omega
  | succ n ih =>
    intro n2 line rest h1 h2
    rcases n2 with _ | m2
    · omega
    · show runBody th (runF th n) line rest = runBody th (runF th m2) line rest
      apply runBody_congr
      intro a b hab
      exact ih (by omega) (by omega)

lemma run_eq (th : Nat) (line : List Char) (rest : List (List Char)) :
    run th line rest = runBody th (run th) line rest := by
  show runBody th (runF th (mLen line rest)) line rest = _
  apply runBody_congr
  intro a b hab
  exact runF_congr th hab (Nat.lt_succ_self _)

lemma run_last {th : Nat} {line : List Char}
    (hop : findOpener line = none) : run th line [] = line := by
  rw [run_eq]
  unfold runBody
  rw [hop]

lemma run_pop {th : Nat} {line : List Char}
    (hop : findOpener line = none) (l : List Char) (ls : List (List Char)) :
    run th line (l :: ls) = line ++ run th l ls := by
  rw [run_eq]
  unfold runBody
  rw [hop]

lemma run_lookalike {th : Nat} {line p cs : List Char}
    {rest : List (List Char)}
    (hop : findOpener line = some (p, cs)) (hdl : digitsLen cs = 0) :
    run th line rest = p ++ pre3 ++ run th cs rest := by
  rw [run_eq]
  unfold runBody
  rw [hop]
  dsimp only
  rw [if_pos hdl]

lemma run_eof {th : Nat} {line p cs full : List Char}
    {rest : List (List Char)}
    (hop : findOpener line = some (p, cs)) (hdl : digitsLen cs ≠ 0)
    (hacc : accumulate (pre3 ++ cs) rest = AccResult.eof full) :
    run th line rest = p ++ full := by
  rw [run_eq]
  unfold runBody
  rw [hop]
  dsimp only
  rw [if_neg hdl, hacc]

lemma run_closed {th : Nat} {line p cs full : List Char} {e d : Nat}
    {rest rest2 : List (List Char)}
    (hop : findOpener line = some (p, cs)) (hdl : digitsLen cs ≠ 0)
    (hacc : accumulate (pre3 ++ cs) rest = AccResult.closed full e d rest2) :
    run th line rest =
      p ++
        (if (pyInt ((full.take d).drop 3)).getD 0 < th then
          (full.take e).drop d
        else
          full.take (e + 2)) ++
        run th (full.drop (e + 2)) rest2 := by
  rw [run_eq]
  unfold runBody
  rw [hop]
  dsimp only
  rw [if_neg hdl, hacc]

lemma drop3_pre3 (cs : List Char) : (pre3 ++ cs).drop 3 = cs := rfl

lemma run_comment_step {th : Nat} {p cs : List Char} {e d : Nat}
    (rest : List (List Char))
    (hp : findOpener p = none)
    (hfind : find_conditional_end (pre3 ++ cs) = (some e, some d)) :
    run th (p ++ pre3 ++ cs) rest =
      p ++
        (if (pyInt (((pre3 ++ cs).take d).drop 3)).getD 0 < th then
          ((pre3 ++ cs).take e).drop d
        else
          (pre3 ++ cs).take (e + 2)) ++
        run th ((pre3 ++ cs).drop (e + 2)) rest := by
  have hop : findOpener (p ++ pre3 ++ cs) = some (p, cs) := by
    have := findOpener_locate hp cs
    rw [List.append_assoc]
    exact this
  have hdl : digitsLen cs ≠ 0 := by
    obtain ⟨-, hdl, -⟩ := find_some_spec hfind
    rwa [drop3_pre3] at hdl
  exact run_closed hop hdl (accumulate_closed_of_find rest hfind)

lemma findOpener_append_none_left {a b : List Char}
    (h : findOpener (a ++ b) = none) :
    findOpener a = none ∧ findOpener b = none := by
  constructor
  · rcases ha : findOpener a with _ | ⟨p, cs⟩
    · rfl
    · rw [findOpener_append_some b ha] at h
      cases h
  · rcases hb : findOpener b with _ | ⟨p, cs⟩
    · rfl
    · exfalso
      refine findOpener_none_no_occ h (x := a ++ p) (y := cs) ?_
      rw [findOpener_sound hb]
      simp

lemma chunks_no_opener : ∀ {chunks : List (List Char)},
    findOpener (chunksConcat chunks) = none →
    ∀ l ∈ chunks, findOpener l = none := by
  intro chunks
  induction chunks with
  | nil => intro _ l hl; cases hl
  | cons c cs ih =>
    intro h l hl
    rw [show chunksConcat (c :: cs) = c ++ chunksConcat cs from rfl] at h
    obtain ⟨h1, h2⟩ := findOpener_append_none_left h
    rcases List.mem_cons.mp hl with hl | hl
    · rw [hl]; exact h1
    · exact ih h2 l hl

lemma run_no_opener {th : Nat} : ∀ {chunks : List (List Char)}
    {line : List Char}, findOpener line = none →
    (∀ l ∈ chunks, findOpener l = none) →
    run th line chunks = line ++ chunksConcat chunks := by
  intro chunks
  induction chunks with
  | nil =>
    intro line h1 _
    rw [run_last h1]
    simp [chunksConcat]
  | cons l ls ih =>
    intro line h1 h2
    rw [run_pop h1, ih (h2 l (by simp)) (fun x hx => h2 x (by simp [hx]))]
    simp [chunksConcat]

/-! ### Claim theorems -/

/-- C5: for every input text (a list of chunks) that contains no
occurrence of the substring `/*!`, the transform's output equals the
input exactly, character for character. -/
theorem spec_C5 (th : Nat) (chunks : List (List Char))
    (h : ∀ x y : List Char,
      chunksConcat chunks ≠ x ++ '/' :: '*' :: '!' :: y) :
    process_dump_stream th chunks = chunksConcat chunks := by
  have hnone : findOpener (chunksConcat chunks) = none :=
    findOpener_none_of_no_occ h
  have hall := chunks_no_opener hnone
  match chunks with
  | [] => rfl
  | l :: ls =>
    show run th l ls = chunksConcat (l :: ls)
    rw [run_no_opener (hall l (by simp)) (fun x hx => hall x (by simp [hx]))]
    rfl

/-- Witness for C5 at a concrete input with ordinary comments only. -/
theorem spec_C5_witness :
    process_dump_stream 80000 ["SELECT 1; /* c */ -- x\n".toList] =
      chunksConcat ["SELECT 1; /* c */ -- x\n".toList] :=
  spec_C5 80000 _ (fun _ _ => findOpener_none_no_occ (by decide))

/-- C7: a `/*!` not followed by a digit is not treated as a versioned
comment: the text before it and the three characters `/*!` are emitted
unchanged and scanning resumes right after them; when nothing after it
forms a versioned comment either, the whole text passes through
unchanged; in particular `/*! not digits */` is passed through
character for character. -/
theorem spec_C7 :
    (∀ (th : Nat) (p cs : List Char) (rest : List (List Char)),
      findOpener p = none → digitsLen cs = 0 →
      run th (p ++ pre3 ++ cs) rest = p ++ pre3 ++ run th cs rest) ∧
    (∀ (th : Nat) (p cs : List Char),
      findOpener p = none → digitsLen cs = 0 → findOpener cs = none →
      run th (p ++ pre3 ++ cs) [] = p ++ pre3 ++ cs) ∧
    run 80000 ("/*! not digits */".toList) [] =
      "/*! not digits */".toList := by
  have main : ∀ (th : Nat) (p cs : List Char) (rest : List (List Char)),
      findOpener p = none → digitsLen cs = 0 →
      run th (p ++ pre3 ++ cs) rest = p ++ pre3 ++ run th cs rest := by
    intro th p cs rest hp hdl
    have hop : findOpener (p ++ pre3 ++ cs) = some (p, cs) := by
      rw [List.append_assoc]
      exact findOpener_locate hp cs
    exact run_lookalike hop hdl
  refine ⟨main, ?_, by decide⟩
  intro th p cs hp hdl hcs
  rw [main th p cs [] hp hdl, run_last hcs]

/-- Witness for C7: both universal parts applied at `p = "ab "`,
`cs = " cd"`. -/
theorem spec_C7_witness :
    run 80000 ("ab ".toList ++ pre3 ++ " cd".toList) [] =
      "ab ".toList ++ pre3 ++ " cd".toList :=
  spec_C7.2.1 80000 ("ab ".toList) (" cd".toList)
    (by decide) (by decide) (by decide)

/-- C10: a non-versioned `/*!` lookalike does not mask a versioned
comment beginning right after it: after emitting the bare `/*!`,
scanning resumes at the next character, so `/*!/*!50003 X */` becomes
`/*! X `. -/
theorem spec_C10 :
    (∀ (th : Nat) (cs : List Char) (rest : List (List Char)),
      digitsLen cs = 0 →
      run th (pre3 ++ cs) rest = pre3 ++ run th cs rest) ∧
    run 80000 ("/*!/*!50003 X */".toList) [] = "/*! X ".toList := by
  constructor
  · intro th cs rest hdl
    have hop : findOpener (pre3 ++ cs) = some ([], cs) := findOpener_opener cs
    simpa using run_lookalike hop hdl
  · decide

/-- Witness for C10 applied at `cs = "/*!50003 X */"`, whose head is
not a digit. -/
theorem spec_C10_witness :
    run 80000 (pre3 ++ "/*!50003 X */".toList) [] =
      pre3 ++ run 80000 ("/*!50003 X */".toList) [] :=
  spec_C10.1 80000 ("/*!50003 X */".toList) [] (by decide)

/-- C1: a versioned comment whose closer is found is unwrapped (only the
inner content between the digit run and the `*/` is emitted) exactly
when the parsed version is below 80000, and otherwise the whole span
including `/*!<digits>` and `*/` is emitted verbatim; in particular
`/*!79999 X */` unwraps to ` X ` while `/*!80000 X */` is preserved. -/
theorem spec_C1 :
    (∀ (p cs : List Char) (rest : List (List Char)) (e d : Nat),
      findOpener p = none →
      find_conditional_end (pre3 ++ cs) = (some e, some d) →
      (((pyInt (((pre3 ++ cs).take d).drop 3)).getD 0 < 80000 →
        run 80000 (p ++ pre3 ++ cs) rest =
          p ++ ((pre3 ++ cs).take e).drop d ++
            run 80000 ((pre3 ++ cs).drop (e + 2)) rest) ∧
       (80000 ≤ (pyInt (((pre3 ++ cs).take d).drop 3)).getD 0 →
        run 80000 (p ++ pre3 ++ cs) rest =
          p ++ (pre3 ++ cs).take (e + 2) ++
            run 80000 ((pre3 ++ cs).drop (e + 2)) rest))) ∧
    run 80000 ("/*!79999 X */".toList) [] = " X ".toList ∧
    run 80000 ("/*!80000 X */".toList) [] = "/*!80000 X */".toList := by
  refine ⟨?_, by decide, by decide⟩
  intro p cs rest e d hp hfind
  constructor
  · intro hv
    rw [run_comment_step rest hp hfind, if_pos hv]
  · intro hv
    rw [run_comment_step rest hp hfind, if_neg (by omega)]

/-- Witness for C1 at the comment `/*!79999 X */` preceded by `ab `. -/
theorem spec_C1_witness :
    run 80000 ("ab ".toList ++ pre3 ++ "79999 X */".toList) [] =
      "ab ".toList ++ ((pre3 ++ "79999 X */".toList).take 11).drop 8 ++
        run 80000 ((pre3 ++ "79999 X */".toList).drop 13) [] :=
  (spec_C1.1 ("ab ".toList) ("79999 X */".toList) [] 11 8
    (by decide) (by decide)).1 (by decide)

/-- C6: after a processed comment, scanning resumes right past its `*/`
and the remainder is handled in the same pass, so two versioned comments
in one chunk are processed independently; in particular
`A /*!50003 B */ C /*!80010 D */ E` yields `A  B  C /*!80010 D */ E`. -/
theorem spec_C6 :
    (∀ (th : Nat) (p1 cs1 p2 cs2 : List Char) (rest : List (List Char))
        (e1 d1 e2 d2 : Nat),
      findOpener p1 = none →
      find_conditional_end (pre3 ++ cs1) = (some e1, some d1) →
      (pre3 ++ cs1).drop (e1 + 2) = p2 ++ pre3 ++ cs2 →
      findOpener p2 = none →
      find_conditional_end (pre3 ++ cs2) = (some e2, some d2) →
      run th (p1 ++ pre3 ++ cs1) rest =
        p1 ++
          (if (pyInt (((pre3 ++ cs1).take d1).drop 3)).getD 0 < th then
            ((pre3 ++ cs1).take e1).drop d1
          else (pre3 ++ cs1).take (e1 + 2)) ++
          (p2 ++
            (if (pyInt (((pre3 ++ cs2).take d2).drop 3)).getD 0 < th then
              ((pre3 ++ cs2).take e2).drop d2
            else (pre3 ++ cs2).take (e2 + 2)) ++
            run th ((pre3 ++ cs2).drop (e2 + 2)) rest)) ∧
    run 80000 ("A /*!50003 B */ C /*!80010 D */ E".toList) [] =
      "A  B  C /*!80010 D */ E".toList := by
  constructor
  · intro th p1 cs1 p2 cs2 rest e1 d1 e2 d2 h1 h2 htail h3 h4
    rw [run_comment_step rest h1 h2, htail, run_comment_step rest h3 h4]
  · decide

/-- Witness for C6 at the two comments of the cited example line. -/
theorem spec_C6_witness :
    run 80000
        ("A ".toList ++ pre3 ++ "50003 B */ C /*!80010 D */ E".toList) [] =
      "A ".toList ++
        (if (pyInt (((pre3 ++ "50003 B */ C /*!80010 D */ E".toList).take 8).drop
              3)).getD 0 < 80000 then
          ((pre3 ++ "50003 B */ C /*!80010 D */ E".toList).take 11).drop 8
        else (pre3 ++ "50003 B */ C /*!80010 D */ E".toList).take (11 + 2)) ++
        (" C ".toList ++
          (if (pyInt (((pre3 ++ "80010 D */ E".toList).take 8).drop 3)).getD 0
              < 80000 then
            ((pre3 ++ "80010 D */ E".toList).take 11).drop 8
          else (pre3 ++ "80010 D */ E".toList).take (11 + 2)) ++
          run 80000 ((pre3 ++ "80010 D */ E".toList).drop (11 + 2)) []) :=
  spec_C6.1 80000 ("A ".toList) ("50003 B */ C /*!80010 D */ E".toList)
    (" C ".toList) ("80010 D */ E".toList) [] 11 8 11 8
    (by decide) (by decide) (by decide) (by decide) (by decide)

lemma drop_pre3_add (cs : List Char) (n : Nat) :
    (pre3 ++ cs).drop (3 + n) = cs.drop n := by
  rw [show (3 : Nat) + n = pre3.length + n from rfl]
  exact List.drop_append n

lemma digitsLen_append_ne {cs : List Char} (x : List Char)
    (h : digitsLen cs ≠ 0) : digitsLen (cs ++ x) ≠ 0 := by
  match cs with
  | [] => simp [digitsLen] at h
  | c :: cs' =>
    rw [List.cons_append]
    exact (digitsLen_cons_ne c _).mpr ((digitsLen_cons_ne c cs').mp h)

lemma accumulate_open : ∀ (rest : List (List Char)) (cs : List Char),
    digitsLen cs ≠ 0 →
    scanClose 0 (3 + digitsLen (cs ++ chunksConcat rest))
      ((cs ++ chunksConcat rest).drop (digitsLen (cs ++ chunksConcat rest)))
      = none →
    accumulate (pre3 ++ cs) rest =
      AccResult.eof ((pre3 ++ cs) ++ chunksConcat rest) := by
  intro rest
  induction rest with
  | nil =>
    intro cs hdl hscan
    simp only [chunksConcat, List.append_nil] at hscan ⊢
    apply accumulate_eof
    apply find_none_of_scan
    rw [drop3_pre3, drop_pre3_add]
    exact hscan
  | cons l ls ih =>
    intro cs hdl hscan
    have hfst : (find_conditional_end (pre3 ++ cs)).1 = none := by
      apply find_none_of_scan
      rw [drop3_pre3, drop_pre3_add]
      by_cases hall : digitsLen cs = cs.length
      · rw [hall, List.drop_length]
        rfl
      · have hlt : digitsLen cs < cs.length :=
          lt_of_le_of_ne (digitsLen_le cs) hall
        have heq : digitsLen (cs ++ chunksConcat (l :: ls)) = digitsLen cs :=
          digitsLen_append_lt _ hlt
        rcases hs : scanClose 0 (3 + digitsLen cs) (cs.drop (digitsLen cs))
          with _ | e
        · rfl
        · exfalso
          have happ := scanClose_append (chunksConcat (l :: ls)) hs
          rw [← List.drop_append_of_le_length (le_of_lt hlt)] at happ
          rw [heq, happ] at hscan
          cases hscan
    rw [accumulate_step hfst l ls]
    have hmain := ih (cs ++ l) (digitsLen_append_ne l hdl) ?_
    · rw [show (pre3 ++ cs) ++ l = pre3 ++ (cs ++ l) by simp, hmain]
      simp [chunksConcat]
    · rw [show (cs ++ l) ++ chunksConcat ls = cs ++ chunksConcat (l :: ls) by
        simp [chunksConcat]]
      exact hscan

/-- C4: when input ends while a versioned comment is open (no depth-0
closer in all the remaining text), this is not fatal: the text before
the opener is emitted, the unterminated comment text is emitted verbatim
with no unwrapping, and processing completes; in particular
`text /*!50003 incomplete` is output verbatim. -/
theorem spec_C4 :
    (∀ (th : Nat) (p cs : List Char) (rest : List (List Char)),
      findOpener p = none → digitsLen cs ≠ 0 →
      scanClose 0 (3 + digitsLen (cs ++ chunksConcat rest))
        ((cs ++ chunksConcat rest).drop (digitsLen (cs ++ chunksConcat rest)))
        = none →
      run th (p ++ pre3 ++ cs) rest =
        p ++ pre3 ++ cs ++ chunksConcat rest) ∧
    run 80000 ("text /*!50003 incomplete".toList) [] =
      "text /*!50003 incomplete".toList := by
  constructor
  · intro th p cs rest hp hdl hscan
    have hop : findOpener (p ++ pre3 ++ cs) = some (p, cs) := by
      rw [List.append_assoc]
      exact findOpener_locate hp cs
    rw [run_eof hop hdl (accumulate_open rest cs hdl hscan)]
    simp
  · decide

/-- Witness for C4: a comment opened in one chunk and never closed in
the remaining chunk. -/
theorem spec_C4_witness :
    run 80000 ("text ".toList ++ pre3 ++ "50003 a".toList)
        [" b /* c".toList] =
      "text ".toList ++ pre3 ++ "50003 a".toList ++
        chunksConcat [" b /* c".toList] :=
  spec_C4.1 80000 ("text ".toList) ("50003 a".toList) [" b /* c".toList]
    (by decide) (by decide) (by decide)

/-- C8 counterexample: the scanner's digit test (`str.isdigit`) accepts
the superscript `²`, yet `int()` rejects it, so the version-0 fallback
is reachable: `/*!² x */` is classified through the fallback (version 0,
legacy) and unwrapped. -/
theorem spec_C8_counterexample :
    digitsLen ("² x */".toList) ≠ 0 ∧
    pyInt ("²".toList) = none ∧
    run 80000 ("/*!² x */".toList) [] = " x ".toList :=
  ⟨by decide, by decide, by decide⟩

/-- C8 amended: the fallback cannot trigger for a digit run made of
ASCII decimal digits — every such non-empty run parses successfully as
an integer. -/
theorem spec_C8 (s : List Char) (hne : s ≠ [])
    (hall : ∀ c ∈ s, c.isDigit = true) :
    ∃ v, pyInt s = some v := by
  match s with
  | [] => exact absurd rfl hne
  | c :: cs =>
    show ∃ v, pyIntGo 0 (c :: cs) = some v
    suffices h : ∀ (acc : Nat) (t : List Char),
        (∀ c ∈ t, c.isDigit = true) → ∃ v, pyIntGo acc t = some v by
      exact h 0 (c :: cs) hall
    intro acc t
    induction t generalizing acc with
    | nil => exact fun _ => ⟨acc, rfl⟩
    | cons d ds ih =>
      intro hall2
      rw [pyIntGo]
      have hd : pyDigit d = some (d.toNat - '0'.toNat) := by
        rw [pyDigit, if_pos (hall2 d (by simp))]
      rw [hd]
      exact ih _ (fun x hx => hall2 x (by simp [hx]))

/-- Witness for the amended C8 at the digit run `50003`. -/
theorem spec_C8_witness : ∃ v, pyInt ("50003".toList) = some v :=
  spec_C8 ("50003".toList) (by decide) (by decide)

lemma noLegacy_fixed {th : Nat} : ∀ {t : List Char},
    NoLegacy th t → run th t [] = t := by
  intro t h
  induction h with
  | no_opener h1 => exact run_last h1
  | lookalike h1 h2 _ ih =>
    rw [run_lookalike h1 h2, ih, List.append_assoc]
    exact (findOpener_sound h1).symm
  | kept h1 h2 h3 h4 _ ih =>
    rw [run_closed h1 h2 (accumulate_closed_of_find [] h3),
      if_neg (by omega), ih, List.append_assoc, List.take_append_drop]
    exact (findOpener_sound h1).symm
  | truncated h1 h2 h3 =>
    rw [run_eof h1 h2 (accumulate_eof h3)]
    exact (findOpener_sound h1).symm

/-- C9: the transform is idempotent on clean input: on text containing
no legacy versioned comment, applying the transform twice equals
applying it once (indeed such text is already a fixed point). -/
theorem spec_C9 (th : Nat) (t : List Char) (h : NoLegacy th t) :
    process_dump_stream th [process_dump_stream th [t]] =
      process_dump_stream th [t] := by
  show run th (run th t []) [] = run th t []
  rw [noLegacy_fixed h, noLegacy_fixed h]

/-- Witness for C9 at `x /*!80000 y */`, a kept (non-legacy) comment. -/
theorem spec_C9_witness :
    process_dump_stream 80000
        [process_dump_stream 80000 ["x /*!80000 y */".toList]] =
      process_dump_stream 80000 ["x /*!80000 y */".toList] :=
  spec_C9 80000 _
    (@NoLegacy.kept 80000 ("x /*!80000 y */".toList) ("x ".toList)
      ("80000 y */".toList) 11 8 (by decide) (by decide) (by decide)
      (by decide) (NoLegacy.no_opener (by decide)))

lemma scan_at_close (d k : Nat) (t : List Char) :
    scanClose d k ('*' :: '/' :: t) =
      if d = 0 then some k else scanClose (d - 1) (k + 2) t := by
  rw [scanClose, if_neg (by decide), if_pos (by decide)]

lemma bal_scan : ∀ {b : List Char}, Bal b → ∀ (d k : Nat) (t : List Char),
    scanClose d k (b ++ '*' :: '/' :: t) =
      if d = 0 then some (k + b.length)
      else scanClose (d - 1) (k + b.length + 2) t := by
  intro b hb
  induction hb with
  | nil =>
    intro d k t
    simpa using scan_at_close d k t
  | @chr c s hp _ ih =>
    intro d k t
    rw [List.cons_append]
    match s with
    | [] =>
      have hc : c ≠ '/' := by simpa [plainStep] using hp
      rw [show ([] : List Char) ++ '*' :: '/' :: t = '*' :: '/' :: t from rfl]
      rw [scanClose, if_neg (by simp [hc]),
        if_neg (fun hx => absurd hx.2 (by decide))]
      rw [scan_at_close]
      simp only [List.length_cons, List.length_nil]
    | c2 :: s2 =>
      have hp2 : ¬(c = '/' ∧ c2 = '*') ∧ ¬(c = '*' ∧ c2 = '/') := by
        constructor
        · rintro ⟨rfl, rfl⟩
          simp [plainStep] at hp
        · rintro ⟨rfl, rfl⟩
          simp [plainStep] at hp
      rw [show (c2 :: s2) ++ '*' :: '/' :: t
            = c2 :: (s2 ++ '*' :: '/' :: t) from rfl]
      rw [scanClose, if_neg hp2.1, if_neg hp2.2]
      rw [show c2 :: (s2 ++ '*' :: '/' :: t)
            = (c2 :: s2) ++ '*' :: '/' :: t from rfl]
      rw [ih d (k + 1) t]
      simp only [List.length_cons]
      split
      · congr 1
        omega
      · congr 1
        omega
  | @blk b2 s2 _ _ ihb ihs =>
    intro d k t
    rw [List.cons_append, List.cons_append, scanClose, if_pos (by decide)]
    rw [show (b2 ++ '*' :: '/' :: s2) ++ '*' :: '/' :: t
          = b2 ++ '*' :: '/' :: (s2 ++ '*' :: '/' :: t) by simp]
    rw [ihb (d + 1) (k + 2) (s2 ++ '*' :: '/' :: t), if_neg (by omega)]
    rw [show d + 1 - 1 = d from rfl]
    rw [ihs d (k + 2 + b2.length + 2) t]
    simp only [List.length_cons, List.length_append]
    split
    · congr 1
      omega
    · congr 1
      omega

lemma digitsLen_all : ∀ {s : List Char},
    (∀ c ∈ s, pyIsDigit c = true) → digitsLen s = s.length := by
  intro s
  induction s with
  | nil => intro _; rfl
  | cons c cs ih =>
    intro h
    rw [digitsLen, if_pos (h c (by simp)), ih fun x hx => h x (by simp [hx])]
    rfl

lemma bal_of_plain : ∀ {s : List Char},
    (∀ c ∈ s, c ≠ '/' ∧ c ≠ '*') → Bal s := by
  intro s
  induction s with
  | nil => intro _; exact Bal.nil
  | cons c cs ih =>
    intro h
    obtain ⟨h1, h2⟩ := h c (by simp)
    refine Bal.chr ?_ (ih fun x hx => h x (by simp [hx]))
    match cs with
    | [] => simpa [plainStep] using h1
    | c2 :: s2 => simp [plainStep, h1, h2]

/-- C2: the delimiter matcher returns the first `*/` at nesting depth 0,
skipping nested `/* ... */` blocks: for any balanced interior the closer
right after it is the match, and the digit-run end is reported as the
start of the inner content; in particular
`/*!50003 BEGIN /* note */ END */` unwraps to
` BEGIN /* note */ END `. -/
theorem spec_C2 :
    (∀ (digits inner t : List Char),
      digits ≠ [] → (∀ c ∈ digits, pyIsDigit c = true) →
      digitsLen (inner ++ '*' :: '/' :: t) = 0 →
      Bal inner →
      find_conditional_end
          (pre3 ++ (digits ++ (inner ++ '*' :: '/' :: t))) =
        (some (3 + digits.length + inner.length),
         some (3 + digits.length))) ∧
    run 80000 ("/*!50003 BEGIN /* note */ END */".toList) [] =
      " BEGIN /* note */ END ".toList := by
  constructor
  · intro digits inner t hne hdig hstop hbal
    have hdl : digitsLen (digits ++ (inner ++ '*' :: '/' :: t))
        = digits.length := by
      rw [digitsLen_append, digitsLen_all hdig, if_pos rfl, hstop]
      omega
    have he : scanClose 0 (3 + digits.length)
        ((digits ++ (inner ++ '*' :: '/' :: t)).drop digits.length)
        = some (3 + digits.length + inner.length) := by
      rw [List.drop_left]
      rw [bal_scan hbal, if_pos rfl]
    have := find_of_parts (c := pre3 ++ (digits ++ (inner ++ '*' :: '/' :: t)))
      (e := 3 + digits.length + inner.length) ?_ ?_
    · rw [this, drop3_pre3, hdl]
    · rw [drop3_pre3, hdl]
      intro hz
      exact hne (List.length_eq_zero.mp hz)
    · rw [drop3_pre3, hdl, drop_pre3_add]
      exact he
  · decide

/-- Witness for C2 at the cited example, whose interior contains one
nested ordinary comment. -/
theorem spec_C2_witness :
    find_conditional_end
        (pre3 ++ ("50003".toList ++
          (" BEGIN /* note */ END ".toList ++ '*' :: '/' :: []))) =
      (some (3 + "50003".toList.length +
        " BEGIN /* note */ END ".toList.length),
       some (3 + "50003".toList.length)) := by
  have hinner : Bal (" BEGIN /* note */ END ".toList) := by
    have hsplit : " BEGIN /* note */ END ".toList =
        ' ' :: 'B' :: 'E' :: 'G' :: 'I' :: 'N' :: ' ' ::
          ('/' :: '*' :: (" note ".toList ++ '*' :: '/' :: " END ".toList)) :=
      by decide
    rw [hsplit]
    exact Bal.chr (by decide) (Bal.chr (by decide) (Bal.chr (by decide)
      (Bal.chr (by decide) (Bal.chr (by decide) (Bal.chr (by decide)
        (Bal.chr (by decide) (Bal.blk (bal_of_plain (by decide))
          (bal_of_plain (by decide)))))))))
  exact spec_C2.1 ("50003".toList) (" BEGIN /* note */ END ".toList) []
    (by decide) (by decide) (by decide) hinner

lemma getLast?_drop_ne {l : List Char} {k : Nat} (h : l.drop k ≠ []) :
    (l.drop k).getLast? = l.getLast? := by
  conv_rhs => rw [← List.take_append_drop k l]
  rw [List.getLast?_append_of_ne_nil _ h]

lemma take3_ne_pre3_head {c : Char} (hc : c ≠ '/') (l : List Char) :
    ¬(c :: l).take 3 = pre3 := by
  intro h
  rw [List.take_succ_cons, pre3] at h
  exact hc (List.head_eq_of_cons_eq h)

lemma take3_ne_pre3_second {c x : Char} (hx : x ≠ '*') (l : List Char) :
    ¬(c :: x :: l).take 3 = pre3 := by
  intro h
  rw [List.take_succ_cons, List.take_succ_cons, pre3] at h
  have := List.tail_eq_of_cons_eq h
  exact hx (List.head_eq_of_cons_eq this)

lemma findOpener_append_barrier : ∀ {a : List Char}, findOpener a = none →
    (a = [] ∨ a.getLast? = some '\n') → ∀ b : List Char,
    findOpener (a ++ b) =
      (findOpener b).map (fun pr => (a ++ pr.1, pr.2)) := by
  intro a
  induction a with
  | nil =>
    intro _ _ b
    rcases hb : findOpener b with _ | pr
    · simp [hb]
    · simp [hb]
  | cons c rest ih =>
    intro h hlast b
    rcases hlast with hlast | hlast
    · cases hlast
    rw [List.cons_append, findOpener]
    have hcondA : ¬(c :: rest).take 3 = pre3 := by
      intro hc
      rw [findOpener, if_pos hc] at h
      cases h
    have hrest : findOpener rest = none := by
      rw [findOpener, if_neg hcondA] at h
      rcases hr : findOpener rest with _ | pr
      · rfl
      · rw [hr] at h
        cases h
    rw [if_neg ?hcond]
    case hcond =>
      match rest, hlast with
      | [], hlast =>
        have hcn : c = '\n' := by simpa using hlast
        subst hcn
        exact take3_ne_pre3_head (by decide) b
      | [x], hlast =>
        have hxn : x = '\n' := by simpa using hlast
        subst hxn
        exact take3_ne_pre3_second (by decide) b
      | x :: y :: rs, hlast =>
        rw [show c :: ((x :: y :: rs) ++ b) = (c :: x :: y :: rs) ++ b by simp,
          List.take_append_of_le_length (by simp)]
        exact hcondA
    · match rest, hlast with
      | [], _ =>
        rcases hb : findOpener b with _ | pr
        · simp [hb]
        · simp [hb]
      | r :: rs, hlast =>
        have hlast2 : (r :: rs).getLast? = some '\n' := by
          rwa [List.getLast?_cons_cons] at hlast
        rw [ih hrest (Or.inr hlast2) b]
        rcases hb : findOpener b with _ | pr
        · simp [hb]
        · simp [hb]

lemma run_stitch_aux : ∀ (n : Nat) (th : Nat) (a b : List Char)
    (rest : List (List Char)), mLen a (b :: rest) ≤ n →
    (a = [] ∨ a.getLast? = some '\n') →
    run th a (b :: rest) = run th (a ++ b) rest := by
  intro n
  induction n with
  | zero =>
    intro th a b rest hm _
    exfalso
    simp [mLen, chunksConcat] at hm
  | succ n ih =>
    intro th a b rest hm hnl
    rcases hop : findOpener a with _ | ⟨pa, cs⟩
    · -- no opener in the current chunk
      rw [run_pop hop b rest]
      have hfab := findOpener_append_barrier hop hnl b
      rcases hb : findOpener b with _ | ⟨pb, csb⟩
      · rw [hb] at hfab
        simp only [Option.map_none'] at hfab
        rcases rest with _ | ⟨l, ls⟩
        · rw [run_last hb, run_last hfab]
        · rw [run_pop hb l ls, run_pop hfab l ls, List.append_assoc]
      · rw [hb] at hfab
        simp only [Option.map_some'] at hfab
        by_cases hdl : digitsLen csb = 0
        · rw [run_lookalike hb hdl, run_lookalike hfab hdl]
          simp
        · rcases hacc : accumulate (pre3 ++ csb) rest with
            ⟨full, e, d, rest2⟩ | full
          · rw [run_closed hb hdl hacc, run_closed hfab hdl hacc]
            simp
          · rw [run_eof hb hdl hacc, run_eof hfab hdl hacc]
            simp
    · -- opener in the current chunk
      have hline := findOpener_sound hop
      have hnl2 : a.getLast? = some '\n' := by
        rcases hnl with rfl | hnl
        · rw [findOpener] at hop
          cases hop
        · exact hnl
      have hcs_ne : cs ≠ [] := by
        intro hcs
        subst hcs
        rw [hline, List.getLast?_append_of_ne_nil _ (by simp)] at hnl2
        simp at hnl2
      have hcs_last : cs.getLast? = some '\n' := by
        rw [hline, List.getLast?_append_of_ne_nil _ (by simp)] at hnl2
        rcases cs with _ | ⟨c0, cs'⟩
        · exact absurd rfl hcs_ne
        · rwa [List.getLast?_cons_cons, List.getLast?_cons_cons,
            List.getLast?_cons_cons] at hnl2
      have hfab : findOpener (a ++ b) = some (pa, cs ++ b) :=
        findOpener_append_some b hop
      have hlen_a : a.length = pa.length + 3 + cs.length := by
        rw [hline]
        simp
        omega
      by_cases hdl : digitsLen cs = 0
      · -- lookalike: the digit test fails on the same character
        have hdl2 : digitsLen (cs ++ b) = 0 := by
          rcases cs with _ | ⟨c0, cs'⟩
          · exact absurd rfl hcs_ne
          · rw [List.cons_append, digitsLen]
            rw [digitsLen] at hdl
            split at hdl
            · omega
            · next hc0 => rw [if_neg hc0]
        rw [run_lookalike hop hdl, run_lookalike hfab hdl2]
        rw [ih th cs b rest
          (by simp only [mLen] at hm ⊢; omega) (Or.inr hcs_last)]
      · -- versioned comment
        have hdl2 : digitsLen (cs ++ b) ≠ 0 := digitsLen_append_ne b hdl
        rcases hf : find_conditional_end (pre3 ++ cs) with ⟨f1, f2⟩
        rcases f1 with _ | e
        · -- not closed inside this chunk: both sides accumulate b
          have hfst : (find_conditional_end (pre3 ++ cs)).1 = none := by
            rw [hf]
          have hstep : accumulate (pre3 ++ cs) (b :: rest)
              = accumulate (pre3 ++ (cs ++ b)) rest := by
            rw [accumulate_step hfst b rest, List.append_assoc]
          rcases hacc : accumulate (pre3 ++ (cs ++ b)) rest with
            ⟨full, e, d, rest2⟩ | full
          · rw [run_closed hop hdl (by rw [hstep]; exact hacc),
              run_closed hfab hdl2 hacc]
          · rw [run_eof hop hdl (by rw [hstep]; exact hacc),
              run_eof hfab hdl2 hacc]
        · -- closed inside this chunk
          obtain ⟨hf2, hdl', hscan⟩ := find_some_spec hf
          subst hf2
          have hdrop3 : digitsLen ((pre3 ++ cs).drop 3) = digitsLen cs := by
            rw [drop3_pre3]
          have hlt : digitsLen cs < cs.length :=
            digitsLen_lt_of_last hcs_last (by decide)
          have hdeq : digitsLen (cs ++ b) = digitsLen cs :=
            digitsLen_append_lt b hlt
          obtain ⟨hke, hb2⟩ := scanClose_bounds hscan
          have hlen_c : (pre3 ++ cs).length = 3 + cs.length := by
            simp [pre3]
            omega
          have hlen_e : e + 2 ≤ (pre3 ++ cs).length := by
            rw [List.length_drop] at hb2
            rw [hdrop3] at hke hb2
            omega
          have hfind2 : find_conditional_end (pre3 ++ (cs ++ b)) =
              (some e, some (3 + digitsLen ((pre3 ++ cs).drop 3))) := by
            have hs2 : scanClose 0 (3 + digitsLen cs)
                ((pre3 ++ (cs ++ b)).drop (3 + digitsLen cs)) = some e := by
              rw [drop_pre3_add,
                List.drop_append_of_le_length (le_of_lt hlt)]
              apply scanClose_append
              rw [drop3_pre3, drop_pre3_add] at hscan
              exact hscan
            have := find_of_parts (c := pre3 ++ (cs ++ b))
              (e := e) ?_ ?_
            · rw [this, drop3_pre3, hdeq, hdrop3]
            · rw [drop3_pre3, hdeq]
              rw [hdrop3] at hdl'
              exact hdl'
            · rw [drop3_pre3, hdeq]
              exact hs2
          have hacc1 : accumulate (pre3 ++ cs) (b :: rest) =
              AccResult.closed (pre3 ++ cs) e
                (3 + digitsLen ((pre3 ++ cs).drop 3)) (b :: rest) :=
            accumulate_closed_of_find _ hf
          have hacc2 : accumulate (pre3 ++ (cs ++ b)) rest =
              AccResult.closed (pre3 ++ (cs ++ b)) e
                (3 + digitsLen ((pre3 ++ cs).drop 3)) rest :=
            accumulate_closed_of_find _ hfind2
          rw [run_closed hop hdl hacc1, run_closed hfab hdl2 hacc2]
          have hassoc : pre3 ++ (cs ++ b) = (pre3 ++ cs) ++ b := by simp
          have htake_e : (pre3 ++ (cs ++ b)).take e = (pre3 ++ cs).take e := by
            rw [hassoc, List.take_append_of_le_length (by omega)]
          have htake_e2 : (pre3 ++ (cs ++ b)).take (e + 2)
              = (pre3 ++ cs).take (e + 2) := by
            rw [hassoc, List.take_append_of_le_length (by omega)]
          have htake_d : (pre3 ++ (cs ++ b)).take
                (3 + digitsLen ((pre3 ++ cs).drop 3))
              = (pre3 ++ cs).take (3 + digitsLen ((pre3 ++ cs).drop 3)) := by
            rw [hassoc, List.take_append_of_le_length (by omega)]
          have hdrop2 : (pre3 ++ (cs ++ b)).drop (e + 2)
              = (pre3 ++ cs).drop (e + 2) ++ b := by
            rw [hassoc, List.drop_append_of_le_length (by omega)]
          rw [htake_e, htake_e2, htake_d, hdrop2]
          rw [ih th ((pre3 ++ cs).drop (e + 2)) b rest ?_ ?_]
          · have h4e : 4 ≤ e := by
              rw [hdrop3] at hke
              have := Nat.one_le_iff_ne_zero.mpr hdl
              omega
            have hle2 : e + 2 ≤ 3 + cs.length := by
              rw [hlen_c] at hlen_e
              exact hlen_e
            simp only [mLen, List.length_drop, hlen_c, hlen_a,
              chunksConcat, List.length_append, List.length_cons] at hm ⊢
            omega
          · by_cases hemp : (pre3 ++ cs).drop (e + 2) = []
            · exact Or.inl hemp
            · refine Or.inr ?_
              rw [getLast?_drop_ne hemp,
                List.getLast?_append_of_ne_nil _ hcs_ne]
              exact hcs_last

lemma run_stitch {th : Nat} {a : List Char} (b : List Char)
    (rest : List (List Char)) (hnl : a = [] ∨ a.getLast? = some '\n') :
    run th a (b :: rest) = run th (a ++ b) rest :=
  run_stitch_aux (mLen a (b :: rest)) th a b rest le_rfl hnl

lemma getLast?_ne_nil {l : List Char} {c : Char}
    (h : l.getLast? = some c) : l ≠ [] := by
  intro hl
  rw [hl] at h
  cases h

lemma process_newline_chunks : ∀ (m th : Nat) (chunks : List (List Char)),
    chunks.length ≤ m → nlTerminated chunks →
    process_dump_stream th chunks =
      process_dump_stream th [chunksConcat chunks] := by
  intro m
  induction m with
  | zero =>
    intro th chunks hlen _
    have : chunks = [] := List.length_eq_zero.mp (Nat.le_zero.mp hlen)
    subst this
    show ([] : List Char) = run th [] []
    rw [run_last (by rw [findOpener])]
  | succ m ih =>
    intro th chunks hlen hnl
    match chunks with
    | [] =>
      show ([] : List Char) = run th [] []
      rw [run_last (by rw [findOpener])]
    | [c] =>
      show run th c [] = run th (chunksConcat [c]) []
      rw [show chunksConcat [c] = c by simp [chunksConcat]]
    | c1 :: c2 :: cs =>
      obtain ⟨h1, h2⟩ := hnl
      show run th c1 (c2 :: cs) = _
      rw [run_stitch c2 cs (Or.inr h1)]
      have hnl2 : nlTerminated ((c1 ++ c2) :: cs) := by
        match cs, h2 with
        | [], _ => exact trivial
        | c3 :: cs2, h2 =>
          exact ⟨by
            rw [List.getLast?_append_of_ne_nil _ (getLast?_ne_nil h2.1)]
            exact h2.1, h2.2⟩
      have hcall := ih th ((c1 ++ c2) :: cs)
        (by simp at hlen ⊢; omega) hnl2
      rw [show run th (c1 ++ c2) cs
            = process_dump_stream th ((c1 ++ c2) :: cs) from rfl, hcall]
      rw [show chunksConcat ((c1 ++ c2) :: cs) = chunksConcat (c1 :: c2 :: cs)
            by simp [chunksConcat]]

/-- C3 counterexample: splitting the opener `/*!` itself across a chunk
boundary changes the output — the streaming pass cannot see the digits
from the earlier chunk, so the comment is not unwrapped. -/
theorem spec_C3_counterexample :
    process_dump_stream 80000 ["/*!".toList, "50003 X */".toList] ≠
      process_dump_stream 80000
        [chunksConcat ["/*!".toList, "50003 X */".toList]] := by
  decide

/-- C3 amended: for the chunk sequences the program actually reads —
every chunk except the last ends with a newline — streaming produces
the same output as feeding the whole text as one chunk; the cited
split `/*!50003 fo` / `o */`, whose opener and digit run lie in one
chunk, also agrees and yields ` foo `.  (For arbitrary splits the
equality fails, see the counterexample.) -/
theorem spec_C3 :
    (∀ (th : Nat) (chunks : List (List Char)), nlTerminated chunks →
      process_dump_stream th chunks =
        process_dump_stream th [chunksConcat chunks]) ∧
    process_dump_stream 80000 ["/*!50003 fo".toList, "o */".toList] =
      process_dump_stream 80000
        [chunksConcat ["/*!50003 fo".toList, "o */".toList]] ∧
    process_dump_stream 80000 ["/*!50003 fo".toList, "o */".toList] =
      " foo ".toList := by
  refine ⟨?_, by decide, by decide⟩
  intro th chunks hnl
  exact process_newline_chunks chunks.length th chunks le_rfl hnl

/-- Witness for C3: a comment spanning a newline-terminated chunk
boundary. -/
theorem spec_C3_witness :
    process_dump_stream 80000
        ["a /*!50003 b\n".toList, "c */ d".toList] =
      process_dump_stream 80000
        [chunksConcat ["a /*!50003 b\n".toList, "c */ d".toList]] :=
  spec_C3.1 80000 ["a /*!50003 b\n".toList, "c */ d".toList]
    ⟨by decide, trivial⟩
